import Mathlib

/-!
# Verification of the "Big Bag Of Words" (bbow) library

A shallow embedding of `src/lib.rs`: a bag of words `Bbow` backed by an
ordered map from normalized word to occurrence count
(`BTreeMap<Cow<str>, usize>` in the source), together with the helper
functions `is_word`, `has_uppercase` and `trim_punctuation`, and the
methods `extend_from_text`, `match_count`, `words`, `count`, `len`,
`is_empty`.

Texts and words are modelled as `List Char` (sequences of Unicode code
points).  The Unicode character-classification facility used by the
source (`char::is_alphabetic`, `char::is_uppercase`,
`char::is_whitespace`, `str::to_lowercase` from the Rust standard
library) is an external collaborator consumed as a black box, so it is
modelled as a parameter: a `CharFacility` bundling the classification
predicates and the string lowercasing map.  Concrete instances are
provided for evaluation; theorems that depend on properties of the
facility state those properties as explicit hypotheses.

The `BTreeMap` is modelled as a strictly sorted association list, sorted
by the lexicographic (code-point) order on keys, which agrees with the
byte order on UTF-8 encoded `str` used by the Rust `BTreeMap`.
-/

/-- A word / text: a sequence of Unicode code points. -/
abbrev Str := List Char

/-- The external Unicode character-classification facility
(`char::is_alphabetic`, `char::is_uppercase`, `char::is_whitespace`,
`str::to_lowercase`), consumed by the source as a black box. -/
structure CharFacility where
  isAlpha : Char → Bool
  isUpper : Char → Bool
  isWhite : Char → Bool
  lowerString : Str → Str

/-- `fn is_word(word: &str) -> bool`:
`!word.is_empty() && word.chars().all(|c| c.is_alphabetic())`. -/
def is_word (F : CharFacility) (word : Str) : Bool :=
  !word.isEmpty && word.all F.isAlpha

/-- `fn has_uppercase(word: &str) -> bool`:
`word.chars().any(char::is_uppercase)`. -/
def has_uppercase (F : CharFacility) (word : Str) : Bool :=
  word.any F.isUpper

/-- `fn trim_punctuation(word: &str) -> &str`:
`word.trim_matches(|c: char| !c.is_alphabetic())` — remove the leading
and the trailing run of non-alphabetic characters. -/
def trim_punctuation (F : CharFacility) (word : Str) : Str :=
  (((word.dropWhile fun c => !F.isAlpha c).reverse.dropWhile
      fun c => !F.isAlpha c).reverse)

/-- Helper for `str::split_whitespace`: accumulate the current token
(reversed) and emit it at each whitespace boundary. -/
def splitWhitespaceAux (F : CharFacility) : Str → Str → List Str
  | acc, [] => if acc.isEmpty then [] else [acc.reverse]
  | acc, c :: cs =>
    if F.isWhite c then
      if acc.isEmpty then splitWhitespaceAux F [] cs
      else acc.reverse :: splitWhitespaceAux F [] cs
    else splitWhitespaceAux F (c :: acc) cs

/-- `str::split_whitespace`: the maximal runs of non-whitespace
characters, in order. -/
def split_whitespace (F : CharFacility) (s : Str) : List Str :=
  splitWhitespaceAux F [] s

/-- The accepted words of a text, in order of occurrence: the token
pipeline of `extend_from_text` before the `for_each`:
`target.split_whitespace().map(trim_punctuation).filter(|w| is_word(w))`. -/
def acceptedWords (F : CharFacility) (target : Str) : List Str :=
  ((split_whitespace F target).map (trim_punctuation F)).filter (is_word F)

/-- The canonical key stored for an accepted word, from the `for_each`
body of `extend_from_text`:
`if has_uppercase(w) { Cow::from(w.to_lowercase()) } else { Cow::from(w) }`. -/
def wordKey (F : CharFacility) (w : Str) : Str :=
  if has_uppercase F w then F.lowerString w else w

/-- The bag: the `BTreeMap<Cow<str>, usize>` inside `struct Bbow`,
as an association list kept strictly sorted by key. -/
abbrev Bbow := List (Str × Nat)

/-- The keys of the map, in storage order. -/
def keysOf (b : Bbow) : List Str := b.map Prod.fst

/-- `Bbow::new()` / `Default::default()`: the empty map. -/
def Bbow.new : Bbow := []

/-- `*self.0.entry(key).or_insert(0) += 1`: insert the key with count 1
if absent, increment its count if present, keeping the list sorted. -/
def insertIncr (k : Str) : Bbow → Bbow
  | [] => [(k, 1)]
  | (k', v) :: rest =>
    if k < k' then (k, 1) :: (k', v) :: rest
    else if k = k' then (k', v + 1) :: rest
    else (k', v) :: insertIncr k rest

/-- `Bbow::extend_from_text`: run the token pipeline over `target` and
insert-or-increment the canonical key of every accepted word. -/
def extend_from_text (F : CharFacility) (b : Bbow) (target : Str) : Bbow :=
  (acceptedWords F target).foldl (fun m w => insertIncr (wordKey F w) m) b

/-- `Bbow::match_count`: `match self.0.get(keyword) { Some(&num) => num,
None => 0 }` — the exact keyword is looked up, with no normalization. -/
def match_count (b : Bbow) (keyword : Str) : Nat :=
  match b.find? (fun e => e.1 = keyword) with
  | some e => e.2
  | none => 0

/-- `Bbow::words`: `self.0.keys()` — the stored keys in map order. -/
def Bbow.words (b : Bbow) : List Str := keysOf b

/-- `Bbow::count`: `self.0.values().sum()`. -/
def Bbow.count (b : Bbow) : Nat := (b.map Prod.snd).sum

/-- `Bbow::len`: `self.0.len()`. -/
def Bbow.len (b : Bbow) : Nat := b.length

/-- `Bbow::is_empty`: `self.0.is_empty()`. -/
def Bbow.is_empty (b : Bbow) : Bool := b.isEmpty

/-- Insert-or-increment a whole list of canonical keys, left to right. -/
def insertAll (ws : List Str) (b : Bbow) : Bbow :=
  ws.foldl (fun m k => insertIncr k m) b

/-- The canonical keys contributed by one text, with multiplicity. -/
def keyOccs (F : CharFacility) (target : Str) : List Str :=
  (acceptedWords F target).map (wordKey F)

/-- Ingest a sequence of texts into a fresh bag, chaining
`extend_from_text` builder-style from `Bbow::new()`. -/
def ingestAll (F : CharFacility) (ts : List Str) : Bbow :=
  ts.foldl (extend_from_text F) Bbow.new

/-- A bag reachable by some sequence of create and ingest operations. -/
def Reachable (F : CharFacility) (b : Bbow) : Prop :=
  ∃ ts : List Str, b = ingestAll F ts

/-- The `BTreeMap` representation invariant: keys strictly increasing in
the lexicographic code-point order. -/
abbrev SortedBag (b : Bbow) : Prop :=
  List.Sorted (· < ·) (keysOf b)

/-- A concrete `CharFacility` faithful to the Rust standard library on
ASCII code points: ASCII letters are the alphabetic characters, ASCII
uppercase the uppercase ones, and lowercasing maps each character
through the ASCII case map. -/
def asciiFacility : CharFacility where
  isAlpha := Char.isAlpha
  isUpper := Char.isUpper
  isWhite := Char.isWhitespace
  lowerString := List.map Char.toLower

/-- A concrete `CharFacility` for a tiny caseless-free alphabet
`{a, b, A, B}`, used to discharge facility hypotheses by elementary
case analysis. -/
def tinyFacility : CharFacility where
  isAlpha c := c = 'a' || c = 'b' || c = 'A' || c = 'B'
  isUpper c := c = 'A' || c = 'B'
  isWhite c := c = ' '
  lowerString w :=
    w.map fun c => if c = 'A' then 'a' else if c = 'B' then 'b' else c

/-! ## Basic lemmas about the map operations -/

/-- The number of accepted words of a text, as the spec counts them:
maximal whitespace-delimited tokens that, after trimming
leading/trailing non-letters, are non-empty and all-letter. -/
def numAccepted (F : CharFacility) (target : Str) : Nat :=
  (split_whitespace F target).countP
    fun tok => is_word F (trim_punctuation F tok)

theorem length_acceptedWords (F : CharFacility) (t : Str) :
    (acceptedWords F t).length = numAccepted F t := by
  simp [acceptedWords, numAccepted, List.countP_eq_length_filter,
    List.filter_map, List.length_map, Function.comp_def]

theorem count_cons (k : Str) (v : Nat) (b : Bbow) :
    Bbow.count ((k, v) :: b) = v + Bbow.count b := by
  simp [Bbow.count]

theorem count_insertIncr (k : Str) (b : Bbow) :
    Bbow.count (insertIncr k b) = Bbow.count b + 1 := by
  induction b with
  | nil => simp [insertIncr, Bbow.count]
  | cons e rest ih =>
    obtain ⟨k', v⟩ := e
    by_cases h1 : k < k'
    · rw [insertIncr, if_pos h1]; simp only [count_cons]; omega
    · by_cases h2 : k = k'
      · rw [insertIncr, if_neg h1, if_pos h2]; simp only [count_cons]; omega
      · rw [insertIncr, if_neg h1, if_neg h2]
        simp only [count_cons, ih]; omega

theorem mem_keysOf_insertIncr {x k : Str} {b : Bbow} :
    x ∈ keysOf (insertIncr k b) ↔ x = k ∨ x ∈ keysOf b := by
  induction b with
  | nil => simp [insertIncr, keysOf]
  | cons e rest ih =>
    obtain ⟨k', v⟩ := e
    by_cases h1 : k < k'
    · simp [insertIncr, h1, keysOf]
    · by_cases h2 : k = k'
      · subst h2
        simp [insertIncr, h1, keysOf]
      · simp [insertIncr, h1, h2, keysOf] at ih ⊢
        tauto

theorem keysOf_nil : keysOf [] = [] := rfl

theorem keysOf_cons (k : Str) (v : Nat) (b : Bbow) :
    keysOf ((k, v) :: b) = k :: keysOf b := rfl

theorem sortedBag_cons {k : Str} {v : Nat} {b : Bbow} :
    SortedBag ((k, v) :: b) ↔ (∀ x ∈ keysOf b, k < x) ∧ SortedBag b := by
  rw [SortedBag, keysOf_cons, List.sorted_cons, SortedBag]

theorem sorted_insertIncr {b : Bbow} (k : Str) (hs : SortedBag b) :
    SortedBag (insertIncr k b) := by
  induction b with
  | nil =>
    rw [insertIncr, SortedBag, keysOf_cons, keysOf_nil]
    exact List.sorted_singleton k
  | cons e rest ih =>
    obtain ⟨k', v⟩ := e
    obtain ⟨hlt, hrest⟩ := sortedBag_cons.mp hs
    by_cases h1 : k < k'
    · rw [insertIncr, if_pos h1, sortedBag_cons, sortedBag_cons]
      refine ⟨?_, hlt, hrest⟩
      intro x hx
      rw [keysOf_cons, List.mem_cons] at hx
      rcases hx with hx | hx
      · exact hx ▸ h1
      · exact lt_trans h1 (hlt x hx)
    · by_cases h2 : k = k'
      · rw [insertIncr, if_neg h1, if_pos h2, sortedBag_cons]
        exact ⟨hlt, hrest⟩
      · rw [insertIncr, if_neg h1, if_neg h2, sortedBag_cons]
        have hk' : k' < k := by
          rcases lt_trichotomy k k' with h | h | h
          · exact absurd h h1
          · exact absurd h h2
          · exact h
        refine ⟨?_, ih hrest⟩
        intro x hx
        rcases mem_keysOf_insertIncr.mp hx with hx' | hx'
        · exact hx' ▸ hk'
        · exact hlt x hx'

theorem match_count_nil (k : Str) : match_count [] k = 0 := rfl

theorem match_count_cons (k₀ : Str) (v : Nat) (rest : Bbow) (k : Str) :
    match_count ((k₀, v) :: rest) k
      = if k₀ = k then v else match_count rest k := by
  by_cases h : k₀ = k <;> simp [match_count, List.find?_cons, h]

theorem match_count_eq_zero_of_not_mem {b : Bbow} {k : Str}
    (h : k ∉ keysOf b) : match_count b k = 0 := by
  induction b with
  | nil => rfl
  | cons e rest ih =>
    obtain ⟨k₀, v⟩ := e
    rw [keysOf_cons, List.mem_cons] at h
    push_neg at h
    rw [match_count_cons, if_neg (fun hh => h.1 hh.symm)]
    exact ih h.2

theorem not_mem_keys_of_lt_head {k k₀ : Str} {v : Nat} {rest : Bbow}
    (hs : SortedBag ((k₀, v) :: rest)) (hk : k < k₀) :
    k ∉ keysOf ((k₀, v) :: rest) := by
  obtain ⟨hlt, _⟩ := sortedBag_cons.mp hs
  rw [keysOf_cons, List.mem_cons]
  push_neg
  refine ⟨ne_of_lt hk, fun hmem => ?_⟩
  exact absurd (lt_trans hk (hlt k hmem)) (lt_irrefl k)

theorem match_count_insertIncr {b : Bbow} (hs : SortedBag b) (k k' : Str) :
    match_count (insertIncr k b) k'
      = match_count b k' + (if k = k' then 1 else 0) := by
  induction b with
  | nil =>
    rw [insertIncr, match_count_cons, match_count_nil]
    by_cases h : k = k' <;> simp [h]
  | cons e rest ih =>
    obtain ⟨k₀, v₀⟩ := e
    obtain ⟨hlt, hrest⟩ := sortedBag_cons.mp hs
    by_cases h1 : k < k₀
    · rw [insertIncr, if_pos h1, match_count_cons]
      by_cases h : k = k'
      · subst h
        rw [if_pos rfl, match_count_eq_zero_of_not_mem
          (not_mem_keys_of_lt_head hs h1)]
        simp
      · rw [if_neg h, if_neg h]
        omega
    · by_cases h2 : k = k₀
      · subst h2
        rw [insertIncr, if_neg h1, if_pos rfl, match_count_cons,
          match_count_cons]
        by_cases h : k = k' <;> simp [h]
      · rw [insertIncr, if_neg h1, if_neg h2, match_count_cons,
          match_count_cons]
        by_cases h : k₀ = k'
        · have hne : k ≠ k' := fun he => h2 (he.trans h.symm)
          rw [if_pos h, if_pos h, if_neg hne]
          omega
        · rw [if_neg h, if_neg h, ih hrest]

theorem len_insertIncr {b : Bbow} (hs : SortedBag b) (k : Str) :
    Bbow.len (insertIncr k b)
      = Bbow.len b + (if k ∈ keysOf b then 0 else 1) := by
  induction b with
  | nil => simp [insertIncr, Bbow.len, keysOf]
  | cons e rest ih =>
    obtain ⟨k₀, v₀⟩ := e
    obtain ⟨hlt, hrest⟩ := sortedBag_cons.mp hs
    by_cases h1 : k < k₀
    · rw [insertIncr, if_pos h1,
        if_neg (not_mem_keys_of_lt_head hs h1)]
      simp [Bbow.len]
    · by_cases h2 : k = k₀
      · subst h2
        rw [insertIncr, if_neg h1, if_pos rfl,
          if_pos (by rw [keysOf_cons]; exact List.mem_cons_self _ _)]
        simp [Bbow.len]
      · rw [insertIncr, if_neg h1, if_neg h2]
        have hmem : (k ∈ keysOf ((k₀, v₀) :: rest)) ↔ k ∈ keysOf rest := by
          rw [keysOf_cons, List.mem_cons]
          exact ⟨fun h => h.resolve_left h2, Or.inr⟩
        by_cases hm : k ∈ keysOf rest
        · rw [if_pos (hmem.mpr hm)]
          simp only [Bbow.len, List.length_cons] at ih ⊢
          rw [ih hrest, if_pos hm]
        · rw [if_neg (fun hh => hm (hmem.mp hh))]
          simp only [Bbow.len, List.length_cons] at ih ⊢
          rw [ih hrest, if_neg hm]

/-! ## Fold-level lemmas -/

theorem extend_eq_insertAll (F : CharFacility) (b : Bbow) (t : Str) :
    extend_from_text F b t = insertAll (keyOccs F t) b := by
  rw [extend_from_text, insertAll, keyOccs, List.foldl_map]

theorem insertAll_cons (w : Str) (ws : List Str) (b : Bbow) :
    insertAll (w :: ws) b = insertAll ws (insertIncr w b) := rfl

theorem insertAll_append (ws ws' : List Str) (b : Bbow) :
    insertAll (ws ++ ws') b = insertAll ws' (insertAll ws b) := by
  rw [insertAll, insertAll, insertAll, List.foldl_append]

theorem sorted_insertAll (ws : List Str) {b : Bbow} (hs : SortedBag b) :
    SortedBag (insertAll ws b) := by
  induction ws generalizing b with
  | nil => exact hs
  | cons w ws ih => exact ih (sorted_insertIncr w hs)

theorem count_insertAll (ws : List Str) (b : Bbow) :
    Bbow.count (insertAll ws b) = Bbow.count b + ws.length := by
  induction ws generalizing b with
  | nil => rfl
  | cons w ws ih =>
    rw [insertAll_cons, ih, count_insertIncr, List.length_cons]
    omega

theorem mem_keysOf_insertAll {x : Str} {ws : List Str} {b : Bbow} :
    x ∈ keysOf (insertAll ws b) ↔ x ∈ keysOf b ∨ x ∈ ws := by
  induction ws generalizing b with
  | nil => simp [insertAll]
  | cons w ws ih =>
    rw [insertAll_cons, ih, List.mem_cons, mem_keysOf_insertIncr]
    tauto

theorem match_count_insertAll {b : Bbow} (hs : SortedBag b)
    (ws : List Str) (k : Str) :
    match_count (insertAll ws b) k = match_count b k + ws.count k := by
  induction ws generalizing b with
  | nil => simp [insertAll, List.count_nil]
  | cons w ws ih =>
    rw [insertAll_cons, ih (sorted_insertIncr w hs),
      match_count_insertIncr hs, List.count_cons]
    by_cases h : w = k
    · simp [h]
      omega
    · simp [h]

/-- All canonical key occurrences contributed by a sequence of texts. -/
def allKeyOccs (F : CharFacility) (ts : List Str) : List Str :=
  (ts.map (keyOccs F)).flatten

theorem length_keyOccs (F : CharFacility) (t : Str) :
    (keyOccs F t).length = numAccepted F t := by
  rw [keyOccs, List.length_map, length_acceptedWords]

theorem foldl_extend_eq_insertAll (F : CharFacility) (ts : List Str)
    (b : Bbow) :
    ts.foldl (extend_from_text F) b = insertAll (allKeyOccs F ts) b := by
  induction ts generalizing b with
  | nil => rfl
  | cons t ts ih =>
    rw [List.foldl_cons, ih, extend_eq_insertAll]
    simp only [allKeyOccs, List.map_cons, List.flatten_cons]
    rw [insertAll_append]

theorem ingestAll_eq_insertAll (F : CharFacility) (ts : List Str) :
    ingestAll F ts = insertAll (allKeyOccs F ts) [] :=
  foldl_extend_eq_insertAll F ts []

theorem sorted_nil : SortedBag [] := List.sorted_nil

theorem sorted_reachable {F : CharFacility} {b : Bbow}
    (hb : Reachable F b) : SortedBag b := by
  obtain ⟨ts, rfl⟩ := hb
  rw [ingestAll_eq_insertAll]
  exact sorted_insertAll _ sorted_nil

theorem keysOf_length (b : Bbow) : (keysOf b).length = Bbow.len b := by
  rw [keysOf, List.length_map, Bbow.len]

theorem toFinset_keysOf_insertAll (ws : List Str) (b : Bbow) :
    (keysOf (insertAll ws b)).toFinset
      = (keysOf b).toFinset ∪ ws.toFinset := by
  apply Finset.ext
  intro x
  simp [List.mem_toFinset, mem_keysOf_insertAll, Finset.mem_union]

theorem len_insertAll_nil (ws : List Str) :
    Bbow.len (insertAll ws []) = ws.dedup.length := by
  have hnd : (keysOf (insertAll ws [])).Nodup :=
    (sorted_insertAll ws sorted_nil).nodup
  rw [← keysOf_length, ← List.toFinset_card_of_nodup hnd,
    toFinset_keysOf_insertAll]
  simp [keysOf_nil, List.card_toFinset]

/-- C1: for every input, `count()` grows by exactly the number of
maximal whitespace-delimited tokens that, after trimming
leading/trailing non-letters, are non-empty and all-letter; across any
sequence of ingestion calls the sum of stored counts is the total number
of accepted word occurrences seen. -/
theorem count_extend_from_text (F : CharFacility) (b : Bbow) (t : Str)
    (ts : List Str) :
    Bbow.count (extend_from_text F b t) = Bbow.count b + numAccepted F t ∧
    Bbow.count (ingestAll F ts) = (ts.map (numAccepted F)).sum := by
  constructor
  · rw [extend_eq_insertAll, count_insertAll, length_keyOccs]
  · rw [ingestAll_eq_insertAll, count_insertAll]
    have : Bbow.count ([] : Bbow) = 0 := rfl
    rw [this, Nat.zero_add, allKeyOccs, List.length_flatten,
      List.map_map]
    congr 1
    apply List.map_congr_left
    intro t' _
    exact length_keyOccs F t'

/-- C6 counterexample: ingesting `"Word word"` accepts two distinct
words, yet `len()` is 1 while `count()` is 2, so "`len()` equals
`count()` iff all accepted words are distinct" fails: the accepted words
are distinct but the counts differ. -/
theorem len_eq_count_distinct_counterexample :
    (acceptedWords asciiFacility ("Word word".toList)).Nodup ∧
    Bbow.len (ingestAll asciiFacility [("Word word".toList)]) = 1 ∧
    Bbow.count (ingestAll asciiFacility [("Word word".toList)]) = 2 := by
  refine ⟨by decide, by decide, by decide⟩

/-- C6 (amended): for every bag built by ingestion, `len() ≤ count()`,
with equality iff all canonical keys of the accepted word occurrences
are distinct. -/
theorem len_le_count_iff_nodup_keys (F : CharFacility) (ts : List Str) :
    Bbow.len (ingestAll F ts) ≤ Bbow.count (ingestAll F ts) ∧
    (Bbow.len (ingestAll F ts) = Bbow.count (ingestAll F ts) ↔
      (allKeyOccs F ts).Nodup) := by
  have hlen : Bbow.len (ingestAll F ts) = (allKeyOccs F ts).dedup.length := by
    rw [ingestAll_eq_insertAll, len_insertAll_nil]
  have hcount : Bbow.count (ingestAll F ts) = (allKeyOccs F ts).length := by
    rw [ingestAll_eq_insertAll, count_insertAll]
    simp [Bbow.count]
  rw [hlen, hcount]
  constructor
  · exact (List.dedup_sublist _).length_le
  · constructor
    · intro h
      have := (List.dedup_sublist (allKeyOccs F ts)).eq_of_length h
      rw [← this]
      exact List.nodup_dedup _
    · intro h
      rw [List.dedup_eq_self.mpr h]

/-- C9: `words()` is exactly the list of stored keys, strictly sorted in
the lexicographic code-point order, with no duplicates; it is a pure
function of the bag (`&self` in the source), so it mutates nothing. -/
theorem words_sorted_nodup (F : CharFacility) (b : Bbow)
    (hb : Reachable F b) :
    Bbow.words b = keysOf b ∧
    List.Sorted (· < ·) (Bbow.words b) ∧ (Bbow.words b).Nodup := by
  have hs : SortedBag b := sorted_reachable hb
  exact ⟨rfl, hs, hs.nodup⟩

/-- Witness for C9 at a concrete reachable bag. -/
theorem words_sorted_nodup_witness :
    Bbow.words (ingestAll asciiFacility [("b a".toList)])
        = keysOf (ingestAll asciiFacility [("b a".toList)]) ∧
    List.Sorted (· < ·)
        (Bbow.words (ingestAll asciiFacility [("b a".toList)])) ∧
    (Bbow.words (ingestAll asciiFacility [("b a".toList)])).Nodup :=
  words_sorted_nodup asciiFacility _ ⟨[("b a".toList)], rfl⟩

/-! ## Key invariants (claims C2, C3) -/

theorem is_word_iff {F : CharFacility} {w : Str} :
    is_word F w = true ↔ w ≠ [] ∧ w.all F.isAlpha = true := by
  rw [is_word, Bool.and_eq_true, Bool.not_eq_true', List.isEmpty_eq_false]

theorem mem_allKeyOccs {F : CharFacility} {ts : List Str} {k : Str}
    (h : k ∈ allKeyOccs F ts) :
    ∃ w, is_word F w = true ∧ k = wordKey F w := by
  rw [allKeyOccs, List.mem_flatten] at h
  obtain ⟨l, hl, hk⟩ := h
  rw [List.mem_map] at hl
  obtain ⟨t, _, rfl⟩ := hl
  rw [keyOccs, List.mem_map] at hk
  obtain ⟨w, hw, rfl⟩ := hk
  exact ⟨w, (List.mem_filter.mp hw).2, rfl⟩

/-- C2: on every reachable bag, every stored key — including keys
produced by the lowercasing step, provided the lowercasing facility maps
non-empty all-letter strings to non-empty all-letter strings — is
non-empty and consists entirely of letters. -/
theorem reachable_keys_are_words (F : CharFacility)
    (hlow : ∀ w : Str, w ≠ [] → w.all F.isAlpha = true →
      F.lowerString w ≠ [] ∧ (F.lowerString w).all F.isAlpha = true)
    (b : Bbow) (hb : Reachable F b) (k : Str) (hk : k ∈ keysOf b) :
    k ≠ [] ∧ k.all F.isAlpha = true := by
  obtain ⟨ts, rfl⟩ := hb
  rw [ingestAll_eq_insertAll] at hk
  rcases mem_keysOf_insertAll.mp hk with hk | hk
  · rw [keysOf_nil] at hk
    exact absurd hk (List.not_mem_nil k)
  · obtain ⟨w, hw, rfl⟩ := mem_allKeyOccs hk
    obtain ⟨hne, hall⟩ := is_word_iff.mp hw
    rw [wordKey]
    by_cases hu : has_uppercase F w = true
    · rw [if_pos hu]
      exact hlow w hne hall
    · rw [if_neg hu]
      exact ⟨hne, hall⟩

theorem tiny_lower_ok (w : Str) (hne : w ≠ [])
    (hall : w.all tinyFacility.isAlpha = true) :
    tinyFacility.lowerString w ≠ [] ∧
    (tinyFacility.lowerString w).all tinyFacility.isAlpha = true := by
  constructor
  · show w.map _ ≠ []
    rw [ne_eq, List.map_eq_nil_iff]
    exact hne
  · show (w.map _).all _ = true
    rw [List.all_eq_true] at hall ⊢
    intro x hx
    rw [List.mem_map] at hx
    obtain ⟨c, hc, rfl⟩ := hx
    have hca := hall c hc
    by_cases h1 : c = 'A'
    · simp [h1, tinyFacility]
    · by_cases h2 : c = 'B'
      · simp [h2, tinyFacility]
      · rw [if_neg h1, if_neg h2]
        exact hca

/-- Witness for C2: a key produced by lowercasing inside a concrete
reachable bag is non-empty and all-letter. -/
theorem reachable_keys_are_words_witness :
    "ab".toList ≠ ([] : Str) ∧
    ("ab".toList).all tinyFacility.isAlpha = true :=
  reachable_keys_are_words tinyFacility tiny_lower_ok
    (ingestAll tinyFacility [("Ab bA".toList)])
    ⟨[("Ab bA".toList)], rfl⟩ ("ab".toList) (by decide)

/-- C3: the canonical key of an accepted word is its full lowercase
mapping when it contains an uppercase letter and the word itself
otherwise; consequently — provided the lowercasing facility never
produces an uppercase letter — no stored key of a reachable bag
contains an uppercase letter. -/
theorem canonical_key_lowercase (F : CharFacility)
    (hup : ∀ w : Str, (F.lowerString w).any F.isUpper = false)
    (w : Str) (b : Bbow) (hb : Reachable F b) (k : Str)
    (hk : k ∈ keysOf b) :
    wordKey F w = (if has_uppercase F w then F.lowerString w else w) ∧
    k.any F.isUpper = false := by
  refine ⟨rfl, ?_⟩
  obtain ⟨ts, rfl⟩ := hb
  rw [ingestAll_eq_insertAll] at hk
  rcases mem_keysOf_insertAll.mp hk with hk | hk
  · rw [keysOf_nil] at hk
    exact absurd hk (List.not_mem_nil k)
  · obtain ⟨w', _, rfl⟩ := mem_allKeyOccs hk
    rw [wordKey]
    by_cases hu : has_uppercase F w' = true
    · rw [if_pos hu]
      exact hup w'
    · rw [if_neg hu]
      rw [has_uppercase] at hu
      rw [Bool.not_eq_true] at hu
      exact hu

theorem tiny_upper_ok (w : Str) :
    (tinyFacility.lowerString w).any tinyFacility.isUpper = false := by
  show (w.map _).any _ = false
  rw [List.any_eq_false]
  intro x hx
  rw [List.mem_map] at hx
  obtain ⟨c, _, rfl⟩ := hx
  by_cases h1 : c = 'A'
  · simp [h1, tinyFacility]
  · by_cases h2 : c = 'B'
    · simp [h2, tinyFacility]
    · rw [if_neg h1, if_neg h2]
      show ¬(tinyFacility.isUpper c = true)
      simp [tinyFacility, h1, h2]

/-- Witness for C3 at a concrete facility, word and reachable bag. -/
theorem canonical_key_lowercase_witness :
    wordKey tinyFacility ("Ab".toList)
        = (if has_uppercase tinyFacility ("Ab".toList)
            then tinyFacility.lowerString ("Ab".toList)
            else ("Ab".toList)) ∧
    ("ab".toList).any tinyFacility.isUpper = false :=
  canonical_key_lowercase tinyFacility tiny_upper_ok ("Ab".toList)
    (ingestAll tinyFacility [("Ab bA".toList)])
    ⟨[("Ab bA".toList)], rfl⟩ ("ab".toList) (by decide)

/-! ## match_count exactness (claim C5) -/

theorem match_count_of_mem :
    ∀ b : Bbow, SortedBag b → ∀ k v, (k, v) ∈ b → match_count b k = v := by
  intro b
  induction b with
  | nil =>
    intro _ k v hmem
    exact absurd hmem (List.not_mem_nil _)
  | cons e rest ih =>
    intro hs k v hmem
    obtain ⟨k₀, v₀⟩ := e
    obtain ⟨hlt, hrest⟩ := sortedBag_cons.mp hs
    rw [match_count_cons]
    rcases List.mem_cons.mp hmem with he | he
    · injection he with h1 h2
      rw [if_pos h1.symm]
      exact h2.symm
    · have hkmem : k ∈ keysOf rest := by
        rw [keysOf, List.mem_map]
        exact ⟨(k, v), he, rfl⟩
      have hne : k₀ ≠ k := fun hh => absurd (hlt k hkmem) (hh ▸ lt_irrefl k₀)
      rw [if_neg hne]
      exact ih hrest k v he

/-- C5: `match_count` looks up the keyword exactly: it returns the count
stored under a key equal to the keyword, and 0 when no such key exists —
for every keyword string whatsoever (malformed, uppercase or unseen),
with no normalization and no failure. -/
theorem match_count_exact (b : Bbow) (hs : SortedBag b) (k : Str)
    (v : Nat) :
    (k ∉ keysOf b → match_count b k = 0) ∧
    ((k, v) ∈ b → match_count b k = v) :=
  ⟨match_count_eq_zero_of_not_mem, match_count_of_mem b hs k v⟩

/-- Witness for C5 on a concrete sorted bag. -/
theorem match_count_exact_witness :
    (("zz".toList ∉ keysOf [(("a".toList : Str), 2)]) →
      match_count [(("a".toList : Str), 2)] ("zz".toList) = 0) ∧
    ((("zz".toList : Str), 2) ∈ [(("a".toList : Str), 2)] →
      match_count [(("a".toList : Str), 2)] ("zz".toList) = 2) :=
  match_count_exact [(("a".toList : Str), 2)] (by decide) ("zz".toList) 2

/-! ## Double ingestion (claim C7) -/

theorem len_eq_card {b : Bbow} (hs : SortedBag b) :
    Bbow.len b = (keysOf b).toFinset.card := by
  rw [← keysOf_length, List.toFinset_card_of_nodup hs.nodup]

/-- C7: ingesting the same text twice gives every key twice the
increment that one ingestion contributes, and the second ingestion
leaves `len()` unchanged. -/
theorem ingest_twice_doubles (F : CharFacility) (b : Bbow) (t : Str)
    (hs : SortedBag b) (k : Str) :
    match_count (extend_from_text F (extend_from_text F b t) t) k
      = match_count b k + 2 * (keyOccs F t).count k ∧
    Bbow.len (extend_from_text F (extend_from_text F b t) t)
      = Bbow.len (extend_from_text F b t) := by
  have hs1 : SortedBag (extend_from_text F b t) := by
    rw [extend_eq_insertAll]
    exact sorted_insertAll _ hs
  have hs2 : SortedBag (extend_from_text F (extend_from_text F b t) t) := by
    rw [extend_eq_insertAll]
    exact sorted_insertAll _ hs1
  constructor
  · rw [extend_eq_insertAll F (extend_from_text F b t) t,
      match_count_insertAll hs1, extend_eq_insertAll F b t,
      match_count_insertAll hs]
    omega
  · rw [len_eq_card hs2, len_eq_card hs1,
      extend_eq_insertAll F (extend_from_text F b t) t,
      toFinset_keysOf_insertAll, extend_eq_insertAll F b t,
      toFinset_keysOf_insertAll, Finset.union_assoc, Finset.union_self]

/-- Witness for C7 on a concrete bag and text. -/
theorem ingest_twice_doubles_witness :
    match_count
        (extend_from_text asciiFacility
          (extend_from_text asciiFacility [(("a".toList : Str), 1)]
            ("a b a".toList))
          ("a b a".toList))
        ("a".toList)
      = match_count [(("a".toList : Str), 1)] ("a".toList)
          + 2 * (keyOccs asciiFacility ("a b a".toList)).count ("a".toList) ∧
    Bbow.len
        (extend_from_text asciiFacility
          (extend_from_text asciiFacility [(("a".toList : Str), 1)]
            ("a b a".toList))
          ("a b a".toList))
      = Bbow.len
          (extend_from_text asciiFacility [(("a".toList : Str), 1)]
            ("a b a".toList)) :=
  ingest_twice_doubles asciiFacility [(("a".toList : Str), 1)]
    ("a b a".toList) (by decide) ("a".toList)

/-! ## Case-insensitive accumulation (claim C8) -/

/-- C8: `"Word"`, `"word"`, `"WORD"` and `"WoRd"` all normalize to the
same canonical key `"word"`, and one `match_count` query on `"word"`
returns their combined total. -/
theorem case_insensitive_accumulation :
    wordKey asciiFacility ("Word".toList) = "word".toList ∧
    wordKey asciiFacility ("word".toList) = "word".toList ∧
    wordKey asciiFacility ("WORD".toList) = "word".toList ∧
    wordKey asciiFacility ("WoRd".toList) = "word".toList ∧
    match_count (ingestAll asciiFacility [("Word word WORD WoRd".toList)])
      ("word".toList) = 4 := by
  refine ⟨by decide, by decide, by decide, by decide, by decide⟩

/-! ## Commutativity of ingestion (claim C10) -/

theorem insertIncr_nil (k : Str) : insertIncr k [] = [(k, 1)] := rfl

theorem insertIncr_cons (k k' : Str) (v : Nat) (rest : Bbow) :
    insertIncr k ((k', v) :: rest)
      = if k < k' then (k, 1) :: (k', v) :: rest
        else if k = k' then (k', v + 1) :: rest
        else (k', v) :: insertIncr k rest := rfl

theorem insertIncr_comm_lt {k k' : Str} (hkk : k < k') (b : Bbow) :
    insertIncr k (insertIncr k' b) = insertIncr k' (insertIncr k b) := by
  induction b with
  | nil =>
    simp [insertIncr_nil, insertIncr_cons, hkk, lt_asymm hkk,
      ne_of_gt hkk]
  | cons e rest ih =>
    obtain ⟨k₀, v₀⟩ := e
    rcases lt_trichotomy k' k₀ with h1 | h1 | h1
    · have hk0 : k < k₀ := lt_trans hkk h1
      simp [insertIncr_cons, h1, hkk, hk0, lt_asymm hkk, ne_of_gt hkk]
    · subst h1
      simp [insertIncr_cons, hkk, lt_asymm hkk, ne_of_gt hkk,
        lt_irrefl k']
    · rcases lt_trichotomy k k₀ with h2 | h2 | h2
      · simp [insertIncr_cons, h2, lt_asymm h1, ne_of_gt h1,
          lt_asymm hkk, ne_of_gt hkk]
      · subst h2
        simp [insertIncr_cons, h1, lt_asymm h1, ne_of_gt h1,
          lt_irrefl k]
      · simp [insertIncr_cons, lt_asymm h1, ne_of_gt h1, lt_asymm h2,
          ne_of_gt h2, ih]

theorem insertIncr_comm (k k' : Str) (b : Bbow) :
    insertIncr k (insertIncr k' b) = insertIncr k' (insertIncr k b) := by
  rcases lt_trichotomy k k' with h | h | h
  · exact insertIncr_comm_lt h b
  · subst h
    rfl
  · exact (insertIncr_comm_lt h b).symm

theorem insertAll_perm {ws ws' : List Str} (h : ws.Perm ws') (b : Bbow) :
    insertAll ws b = insertAll ws' b := by
  induction h generalizing b with
  | nil => rfl
  | cons x _ ih => rw [insertAll_cons, insertAll_cons, ih]
  | swap x y l =>
    rw [insertAll_cons, insertAll_cons, insertAll_cons, insertAll_cons,
      insertIncr_comm]
  | trans _ _ ih1 ih2 => rw [ih1, ih2]

/-- C10: ingestion order does not matter — ingesting text `a` then text
`c` produces exactly the same map as ingesting `c` then `a`. -/
theorem ingest_commutes (F : CharFacility) (b : Bbow) (a c : Str) :
    extend_from_text F (extend_from_text F b a) c
      = extend_from_text F (extend_from_text F b c) a := by
  simp only [extend_eq_insertAll]
  rw [← insertAll_append, ← insertAll_append]
  exact insertAll_perm List.perm_append_comm b

/-! ## Boundary-only trimming (claim C4) -/

theorem dropWhile_append_of_ex {α : Type} (p : α → Bool) (a l : List α)
    (ha : ∃ x ∈ a, p x = false) :
    (a ++ l).dropWhile p = a.dropWhile p ++ l := by
  induction a with
  | nil =>
    obtain ⟨x, hx, _⟩ := ha
    exact absurd hx (List.not_mem_nil x)
  | cons y a' ih =>
    by_cases hy : p y = true
    · rw [List.cons_append, List.dropWhile_cons, if_pos hy,
        List.dropWhile_cons, if_pos hy]
      apply ih
      obtain ⟨x, hx, hpx⟩ := ha
      rcases List.mem_cons.mp hx with rfl | hx'
      · rw [hy] at hpx
        exact absurd hpx (by decide)
      · exact ⟨x, hx', hpx⟩
    · rw [List.cons_append, List.dropWhile_cons, if_neg hy,
        List.dropWhile_cons, if_neg hy, List.cons_append]

theorem headI_dropWhile_false (p : Char → Bool) (l : Str)
    (h : l.dropWhile p ≠ []) : p ((l.dropWhile p).headI) = false := by
  induction l with
  | nil => exact absurd rfl h
  | cons x xs ih =>
    rw [List.dropWhile_cons] at h ⊢
    by_cases hx : p x = true
    · rw [if_pos hx] at h ⊢
      exact ih h
    · rw [if_neg hx]
      show p x = false
      exact Bool.eq_false_iff.mpr hx

theorem getLastI_append_singleton (l : Str) (y : Char) :
    (l ++ [y]).getLastI = y := by
  induction l with
  | nil => rfl
  | cons x xs ih =>
    rw [List.cons_append]
    cases hxs : xs ++ [y] with
    | nil => exact absurd hxs (by simp)
    | cons z zs =>
      rw [List.getLastI_eq_getLast?, List.getLast?_cons_cons,
        ← List.getLastI_eq_getLast?, ← hxs, ih]

/-- C4: trimming removes exactly a leading and a trailing run of
non-letter characters (the text decomposes as that prefix, the trimmed
candidate — which begins and ends with a letter when non-empty — and
that suffix); the candidate is accepted iff it is non-empty and
all-letter; and a token with an internal non-letter character between
letters is rejected entirely. -/
theorem trim_boundary_only (F : CharFacility) (w a bsuf : Str) (c : Char)
    (hne : trim_punctuation F w ≠ [])
    (hc : F.isAlpha c = false) (ha : a.any F.isAlpha = true)
    (hb : bsuf.any F.isAlpha = true) :
    (w = (w.takeWhile fun x => !F.isAlpha x) ++ trim_punctuation F w
        ++ (((w.dropWhile fun x => !F.isAlpha x).reverse.takeWhile
              fun x => !F.isAlpha x).reverse) ∧
      ((w.takeWhile fun x => !F.isAlpha x).all
          fun x => !F.isAlpha x) = true ∧
      ((((w.dropWhile fun x => !F.isAlpha x).reverse.takeWhile
            fun x => !F.isAlpha x).reverse).all
          fun x => !F.isAlpha x) = true) ∧
    is_word F (trim_punctuation F w)
      = (!(trim_punctuation F w).isEmpty
          && (trim_punctuation F w).all F.isAlpha) ∧
    (F.isAlpha (trim_punctuation F w).headI = true ∧
      F.isAlpha (trim_punctuation F w).getLastI = true) ∧
    is_word F (trim_punctuation F (a ++ c :: bsuf)) = false := by
  have h3 : ∀ z : Str,
      z.dropWhile (fun x => !F.isAlpha x)
        = ((z.dropWhile fun x => !F.isAlpha x).reverse.dropWhile
            (fun x => !F.isAlpha x)).reverse
          ++ (((z.dropWhile fun x => !F.isAlpha x).reverse.takeWhile
              fun x => !F.isAlpha x).reverse) := by
    intro z
    have h2 := List.takeWhile_append_dropWhile (fun x => !F.isAlpha x)
      (z.dropWhile fun x => !F.isAlpha x).reverse
    have := congrArg List.reverse h2
    rw [List.reverse_append, List.reverse_reverse] at this
    exact this.symm
  refine ⟨⟨?_, ?_, ?_⟩, rfl, ⟨?_, ?_⟩, ?_⟩
  · have h4 := h3 w
    conv_lhs => rw [← List.takeWhile_append_dropWhile
      (fun x => !F.isAlpha x) w, h4]
    rw [List.append_assoc]
    rfl
  · rw [List.all_eq_true]
    intro x hx
    exact List.mem_takeWhile_imp (p := fun x => !F.isAlpha x) hx
  · rw [List.all_eq_true]
    intro x hx
    rw [List.mem_reverse] at hx
    exact List.mem_takeWhile_imp (p := fun x => !F.isAlpha x) hx
  · -- the head of the trimmed candidate is a letter
    have hune : w.dropWhile (fun x => !F.isAlpha x) ≠ [] := by
      intro h0
      exact hne (by simp [trim_punctuation, h0])
    have hxu : (!F.isAlpha (w.dropWhile fun x => !F.isAlpha x).headI)
        = false := headI_dropWhile_false (fun x => !F.isAlpha x) w hune
    have hheads : (trim_punctuation F w).headI
        = (w.dropWhile fun x => !F.isAlpha x).headI := by
      cases htr : trim_punctuation F w with
      | nil => exact absurd htr hne
      | cons x xs =>
        have hu := h3 w
        rw [show ((w.dropWhile fun x => !F.isAlpha x).reverse.dropWhile
            (fun x => !F.isAlpha x)).reverse = trim_punctuation F w
            from rfl, htr] at hu
        rw [hu, List.cons_append]
        rfl
    rw [hheads]
    exact (Bool.not_eq_false' _) ▸ hxu
  · -- the last character of the trimmed candidate is a letter
    have hvne : (w.dropWhile fun x => !F.isAlpha x).reverse.dropWhile
        (fun x => !F.isAlpha x) ≠ [] := by
      intro h0
      exact hne (by simp [trim_punctuation, h0])
    have hxv : (!F.isAlpha ((w.dropWhile fun x =>
        !F.isAlpha x).reverse.dropWhile (fun x => !F.isAlpha x)).headI)
        = false := headI_dropWhile_false (fun x => !F.isAlpha x)
      (w.dropWhile fun x => !F.isAlpha x).reverse hvne
    cases hv : (w.dropWhile fun x => !F.isAlpha x).reverse.dropWhile
        (fun x => !F.isAlpha x) with
    | nil => exact absurd hv hvne
    | cons y ys =>
      have hlast : (trim_punctuation F w).getLastI = y := by
        show (((w.dropWhile fun x => !F.isAlpha x).reverse.dropWhile
            (fun x => !F.isAlpha x)).reverse).getLastI = y
        rw [hv, List.reverse_cons, getLastI_append_singleton]
      rw [hlast]
      rw [hv] at hxv
      exact (Bool.not_eq_false' _) ▸ hxv
  · -- internal non-letter: the whole token is rejected
    obtain ⟨xa, hxa, hpa⟩ := List.any_eq_true.mp ha
    obtain ⟨xb, hxb, hpb⟩ := List.any_eq_true.mp hb
    have exa : ∃ x ∈ a, (fun x => !F.isAlpha x) x = false :=
      ⟨xa, hxa, by show (!F.isAlpha xa) = false; rw [hpa]; rfl⟩
    have exb : ∃ x ∈ bsuf.reverse, (fun x => !F.isAlpha x) x = false :=
      ⟨xb, List.mem_reverse.mpr hxb,
        by show (!F.isAlpha xb) = false; rw [hpb]; rfl⟩
    have step1 := dropWhile_append_of_ex (fun x => !F.isAlpha x) a
      (c :: bsuf) exa
    have step2 : ((a.dropWhile fun x => !F.isAlpha x) ++ c :: bsuf).reverse
        = bsuf.reverse
          ++ c :: (a.dropWhile fun x => !F.isAlpha x).reverse := by
      rw [List.reverse_append, List.reverse_cons, List.append_assoc,
        List.singleton_append]
    have step3 := dropWhile_append_of_ex (fun x => !F.isAlpha x)
      bsuf.reverse (c :: (a.dropWhile fun x => !F.isAlpha x).reverse) exb
    have hcmem : c ∈ trim_punctuation F (a ++ c :: bsuf) := by
      show c ∈ (((a ++ c :: bsuf).dropWhile
          fun x => !F.isAlpha x).reverse.dropWhile
            (fun x => !F.isAlpha x)).reverse
      rw [step1, step2, step3, List.mem_reverse]
      exact List.mem_append_right _ (List.mem_cons_self c _)
    have hallf : (trim_punctuation F (a ++ c :: bsuf)).all F.isAlpha
        = false := by
      rw [Bool.eq_false_iff]
      intro hall
      have := List.all_eq_true.mp hall c hcmem
      rw [hc] at this
      exact absurd this (by decide)
    rw [is_word, hallf, Bool.and_false]

/-- Witness for C4: `"!word?"` trims to `"word"`; `"not-a-word"` is
rejected entirely. -/
theorem trim_boundary_only_witness :
    (("!word?".toList : Str)
        = (("!word?".toList : Str).takeWhile
            fun x => !asciiFacility.isAlpha x)
          ++ trim_punctuation asciiFacility ("!word?".toList)
          ++ (((("!word?".toList : Str).dropWhile
                fun x => !asciiFacility.isAlpha x).reverse.takeWhile
                  fun x => !asciiFacility.isAlpha x).reverse) ∧
      ((("!word?".toList : Str).takeWhile
          fun x => !asciiFacility.isAlpha x).all
            fun x => !asciiFacility.isAlpha x) = true ∧
      ((((("!word?".toList : Str).dropWhile
            fun x => !asciiFacility.isAlpha x).reverse.takeWhile
              fun x => !asciiFacility.isAlpha x).reverse).all
            fun x => !asciiFacility.isAlpha x) = true) ∧
    is_word asciiFacility (trim_punctuation asciiFacility ("!word?".toList))
      = (!(trim_punctuation asciiFacility ("!word?".toList)).isEmpty
          && (trim_punctuation asciiFacility
              ("!word?".toList)).all asciiFacility.isAlpha) ∧
    (asciiFacility.isAlpha
        (trim_punctuation asciiFacility ("!word?".toList)).headI = true ∧
      asciiFacility.isAlpha
        (trim_punctuation asciiFacility ("!word?".toList)).getLastI
          = true) ∧
    is_word asciiFacility
        (trim_punctuation asciiFacility
          ("not".toList ++ '-' :: "a-word".toList)) = false :=
  trim_boundary_only asciiFacility ("!word?".toList) ("not".toList)
    ("a-word".toList) '-' (by decide) (by decide) (by decide) (by decide)
